import Mathlib

/-!
Verification of the `peek-nth` iterator adapter (`src/lib.rs`).

The adapter `PeekableNth<I>` wraps an iterator `I` together with a FIFO
buffer (`next: VecDeque<I::Item>`) of elements already pulled from the
iterator but not yet delivered to the caller.

We embed iterators as explicit state passing: a source is a state type `σ`
together with a step function `σ → Option α × σ` (Rust's `Iterator::next`
mutates the iterator and returns an `Option`; we return the new state
alongside the optional value, so non-fused sources — which may yield again
after returning `None` — are representable).  A `PeekableNth` state is the
pair of the wrapped iterator state and the buffer, exactly the fields of
the Rust struct.
-/

/-- The state of `PeekableNth<I>`: the wrapped iterator and the buffer of
already-pulled, not-yet-delivered elements (the Rust field `next:
VecDeque<I::Item>`, front of the deque = head of the list). -/
structure PeekableNth (σ : Type u) (α : Type v) where
  iter : σ
  next : List α
deriving DecidableEq, Repr

/-- `IteratorExt::peekable_nth`: wrap an iterator with an empty buffer. -/
def IteratorExt.peekable_nth (α : Type v) (it : σ) : PeekableNth σ α :=
  ⟨it, []⟩

/-- The `for _ in self.next.len()..=n` loop body of `peek_nth`, with the
(fixed) iteration count made explicit: pull up to `fuel` elements from the
iterator, appending each to the back of the buffer; stop early when the
iterator reports `None` (Rust's `?` operator), keeping the elements pulled
so far and the advanced iterator state. -/
def PeekableNth.pullN (step : σ → Option α × σ) : Nat → PeekableNth σ α → PeekableNth σ α
  | 0, s => s
  | fuel + 1, s =>
    match step s.iter with
    | (none, it) => ⟨it, s.next⟩
    | (some x, it) => PeekableNth.pullN step fuel ⟨it, s.next ++ [x]⟩

/-- `PeekableNth::peek_nth`: run the fill loop (`n + 1 - self.next.len()`
iterations, each pushing one pulled element), then return `self.next.get(n)`.
Returns the optional peeked value together with the updated state. -/
def PeekableNth.peek_nth (step : σ → Option α × σ) (n : Nat) (s : PeekableNth σ α) :
    Option α × PeekableNth σ α :=
  let t := PeekableNth.pullN step (n + 1 - s.next.length) s
  (t.next[n]?, t)

/-- `PeekableNth::peek`: defined as `peek_nth(0)`. -/
def PeekableNth.peek (step : σ → Option α × σ) (s : PeekableNth σ α) :
    Option α × PeekableNth σ α :=
  PeekableNth.peek_nth step 0 s

/-- `Iterator::next` for `PeekableNth`: if the buffer is empty, pull
directly from the wrapped iterator (whose state advances even on `None`);
otherwise pop the buffer's front element, leaving the iterator untouched. -/
def Iterator.next (step : σ → Option α × σ) (s : PeekableNth σ α) :
    Option α × PeekableNth σ α :=
  match s.next with
  | [] => ((step s.iter).1, ⟨(step s.iter).2, []⟩)
  | x :: xs => (some x, ⟨s.iter, xs⟩)

/-- `DoubleEndedIterator::next_back` for `PeekableNth`: first ask the
wrapped iterator for an element from its back end; if it yields a value,
return it (buffer untouched); if it is exhausted and the buffer is
non-empty, pop and return the buffer's back element; otherwise `none`. -/
def DoubleEndedIterator.next_back (stepb : σ → Option α × σ) (s : PeekableNth σ α) :
    Option α × PeekableNth σ α :=
  match stepb s.iter with
  | (some x, it) => (some x, ⟨it, s.next⟩)
  | (none, it) =>
    if s.next.isEmpty then (none, ⟨it, s.next⟩)
    else (s.next.getLast?, ⟨it, s.next.dropLast⟩)

/-- `ExactSizeIterator::len` for `PeekableNth`: the code returns
`self.iter.len()` — the wrapped iterator's own remaining count only,
ignoring the buffer. -/
def ExactSizeIterator.len (lenf : σ → Nat) (s : PeekableNth σ α) : Nat :=
  lenf s.iter

/-- A concrete well-behaved source: a list of remaining elements, popped
from the front.  Its exact remaining count is `List.length`. -/
def listStep : List α → Option α × List α
  | [] => (none, [])
  | x :: xs => (some x, xs)

/-- The back end of the list source (`DoubleEndedIterator::next_back` of
the wrapped iterator): pop the last remaining element. -/
def listStepBack (l : List α) : Option α × List α :=
  match l.getLast? with
  | none => (none, l)
  | some x => (some x, l.dropLast)

/-- A concrete non-fused source: a script of answers, each call pops and
returns the next scripted answer (possibly `none` followed by `some _`). -/
def scriptStep : List (Option α) → Option α × List (Option α)
  | [] => (none, [])
  | o :: rest => (o, rest)

/-- Repeated `Iterator::next` until `none`, with explicit fuel: the list of
values a full drain yields (in order). -/
def drainFuel (step : σ → Option α × σ) : Nat → PeekableNth σ α → List α
  | 0, _ => []
  | fuel + 1, s =>
    match Iterator.next step s with
    | (none, _) => []
    | (some x, t) => x :: drainFuel step fuel t

/-- A full drain of a list-backed `PeekableNth` via repeated
`Iterator::next`: the fuel `buffer length + remaining length` is exactly
the number of `some` answers a drain produces. -/
def drainList (s : PeekableNth (List α) α) : List α :=
  drainFuel listStep (s.next.length + s.iter.length) s

-- ### Basic lemmas about the list-backed source

theorem pullN_listStep (m : Nat) :
    ∀ (it : List α) (buf : List α),
      PeekableNth.pullN listStep m ⟨it, buf⟩ = ⟨it.drop m, buf ++ it.take m⟩ := by
  induction m with
  | zero => intro it buf; simp [PeekableNth.pullN]
  | succ k ih =>
    intro it buf
    cases it with
    | nil => simp [PeekableNth.pullN, listStep]
    | cons y ys =>
      simp [PeekableNth.pullN, listStep, ih ys (buf ++ [y])]

theorem drainFuel_listStep_nil_buf :
    ∀ it : List α, drainFuel listStep it.length ⟨it, []⟩ = it := by
  intro it
  induction it with
  | nil => simp [drainFuel]
  | cons y ys ih => simp [drainFuel, Iterator.next, listStep, ih]

theorem drainList_eq (it buf : List α) :
    drainList ⟨it, buf⟩ = buf ++ it := by
  unfold drainList
  induction buf with
  | nil => simpa using drainFuel_listStep_nil_buf it
  | cons x xs ih =>
    simp only [List.length_cons]
    have : xs.length + 1 + it.length = (xs.length + it.length) + 1 := by omega
    rw [this]
    simp [drainFuel, Iterator.next, listStep] at ih ⊢
    exact ih

-- ### Further helper lemmas

theorem peek_nth_stable (k : Nat) (s : PeekableNth (List α) α)
    (h : k + 1 ≤ s.next.length ∨ s.iter = []) :
    PeekableNth.peek_nth listStep k s = (s.next[k]?, s) := by
  obtain ⟨it, buf⟩ := s
  rcases h with h | h
  · have : k + 1 - buf.length = 0 := by simpa using Nat.sub_eq_zero_of_le h
    simp [PeekableNth.peek_nth, this, PeekableNth.pullN]
  · simp only at h
    subst h
    simp [PeekableNth.peek_nth, pullN_listStep]

theorem peek_nth_post (k : Nat) (s : PeekableNth (List α) α) :
    k + 1 ≤ (PeekableNth.peek_nth listStep k s).2.next.length ∨
      (PeekableNth.peek_nth listStep k s).2.iter = [] := by
  obtain ⟨it, buf⟩ := s
  simp only [PeekableNth.peek_nth, pullN_listStep, List.length_append, List.length_take,
    List.drop_eq_nil_iff, List.length_drop]
  omega

theorem pullN_length_le (step : σ → Option α × σ) (m : Nat) :
    ∀ s : PeekableNth σ α, (PeekableNth.pullN step m s).next.length ≤ s.next.length + m := by
  induction m with
  | zero => intro s; simp [PeekableNth.pullN]
  | succ k ih =>
    intro s
    simp only [PeekableNth.pullN]
    rcases hs : step s.iter with ⟨o, it⟩
    cases o with
    | none => simp
    | some x =>
      show (PeekableNth.pullN step k ⟨it, s.next ++ [x]⟩).next.length ≤ s.next.length + (k + 1)
      have h2 := ih ⟨it, s.next ++ [x]⟩
      simp at h2
      omega

-- ### Claim theorems

/-- Claim C2: for a finite source sequence `l` and `k < l.length`,
`peek_nth k` on a freshly wrapped iterator returns the `(k+1)`-th value
`l[k]`, and a subsequent full drain via repeated `next` still yields the
original sequence `l`, unchanged and in order. -/
theorem peek_nth_in_range_and_drain (l : List α) (k : Nat) (h : k < l.length) :
    (PeekableNth.peek_nth listStep k (IteratorExt.peekable_nth α l)).1 = some l[k] ∧
    drainList (PeekableNth.peek_nth listStep k (IteratorExt.peekable_nth α l)).2 = l := by
  simp only [PeekableNth.peek_nth, IteratorExt.peekable_nth, List.length_nil, Nat.sub_zero,
    pullN_listStep, List.nil_append]
  constructor
  · rw [List.getElem?_take_of_lt (by omega), List.getElem?_eq_getElem h]
  · rw [drainList_eq, List.take_append_drop]

/-- Witness for C2 at `l = [5, 6, 7]`, `k = 1`. -/
theorem peek_nth_in_range_and_drain_witness :
    (PeekableNth.peek_nth listStep 1 (IteratorExt.peekable_nth Nat [5, 6, 7])).1 = some 6 ∧
    drainList (PeekableNth.peek_nth listStep 1 (IteratorExt.peekable_nth Nat [5, 6, 7])).2 =
      [5, 6, 7] :=
  peek_nth_in_range_and_drain [5, 6, 7] 1 (by decide)

/-- Claim C4: for a finite source sequence `l` and `k ≥ l.length`,
`peek_nth k` on a freshly wrapped iterator returns `none`, the buffer
retains every element pulled before exhaustion (all of `l`), and a
subsequent full drain via repeated `next` still yields exactly `l`. -/
theorem peek_nth_out_of_range (l : List α) (k : Nat) (h : l.length ≤ k) :
    (PeekableNth.peek_nth listStep k (IteratorExt.peekable_nth α l)).1 = none ∧
    (PeekableNth.peek_nth listStep k (IteratorExt.peekable_nth α l)).2.next = l ∧
    drainList (PeekableNth.peek_nth listStep k (IteratorExt.peekable_nth α l)).2 = l := by
  simp only [PeekableNth.peek_nth, IteratorExt.peekable_nth, List.length_nil, Nat.sub_zero,
    pullN_listStep, List.nil_append]
  have htake : l.take (k + 1) = l := List.take_of_length_le (by omega)
  have hdrop : l.drop (k + 1) = ([] : List α) := List.drop_eq_nil_of_le (by omega)
  rw [htake, hdrop]
  refine ⟨List.getElem?_eq_none h, rfl, ?_⟩
  rw [drainList_eq, List.append_nil]

/-- Witness for C4 at `l = [5, 6]`, `k = 5`. -/
theorem peek_nth_out_of_range_witness :
    (PeekableNth.peek_nth listStep 5 (IteratorExt.peekable_nth Nat [5, 6])).1 = none ∧
    (PeekableNth.peek_nth listStep 5 (IteratorExt.peekable_nth Nat [5, 6])).2.next = [5, 6] ∧
    drainList (PeekableNth.peek_nth listStep 5 (IteratorExt.peekable_nth Nat [5, 6])).2 =
      [5, 6] :=
  peek_nth_out_of_range [5, 6] 5 (by decide)

/-- Claim C6: for every state of a list-backed `PeekableNth` (any remaining
list `l` and any buffer `buf`) and every depth `k`, a second `peek_nth k`
with no intervening advance returns the same value as the first and leaves
the state exactly as the first left it: `peek_nth` is idempotent. -/
theorem peek_nth_idempotent (l buf : List α) (k : Nat) :
    PeekableNth.peek_nth listStep k (PeekableNth.peek_nth listStep k ⟨l, buf⟩).2 =
      ((PeekableNth.peek_nth listStep k ⟨l, buf⟩).1,
        (PeekableNth.peek_nth listStep k ⟨l, buf⟩).2) := by
  rw [peek_nth_stable k _ (peek_nth_post k ⟨l, buf⟩)]
  rfl

/-- Claim C9: whenever the buffer is non-empty (it has the form
`x :: xs`), `next` removes and returns the buffer's oldest element `x` and
leaves the wrapped iterator state `it` completely untouched — no call is
made to the source step function. -/
theorem next_nonempty_buffer (step : σ → Option α × σ) (it : σ) (x : α) (xs : List α) :
    Iterator.next step ⟨it, x :: xs⟩ = (some x, ⟨it, xs⟩) :=
  rfl

/-- Claim C3: `next_back` first asks the wrapped bidirectional iterator for
an element from its back end.  If the source yields a value, that value is
returned and the buffer is unaffected; if the source is exhausted and the
buffer is non-empty, the buffer's newest (back) element is removed and
returned; if the source is exhausted and the buffer is empty, `none` is
returned. -/
theorem next_back_cases (stepb : σ → Option α × σ) (s : PeekableNth σ α) :
    (∀ v it, stepb s.iter = (some v, it) →
      DoubleEndedIterator.next_back stepb s = (some v, ⟨it, s.next⟩)) ∧
    (∀ it, stepb s.iter = (none, it) → s.next ≠ [] →
      (DoubleEndedIterator.next_back stepb s).1 = s.next.getLast? ∧
      (DoubleEndedIterator.next_back stepb s).2.next = s.next.dropLast) ∧
    (∀ it, stepb s.iter = (none, it) → s.next = [] →
      (DoubleEndedIterator.next_back stepb s).1 = none) := by
  refine ⟨?_, ?_, ?_⟩
  · intro v it h
    simp [DoubleEndedIterator.next_back, h]
  · intro it h hne
    simp [DoubleEndedIterator.next_back, h, List.isEmpty_iff, hne]
  · intro it h he
    simp [DoubleEndedIterator.next_back, h, he]

/-- Witness for C3: both the source-yields branch (source `[1, 2]`) and the
source-exhausted, buffer-non-empty branch (source `[]`, buffer `[7, 8]`). -/
theorem next_back_cases_witness :
    DoubleEndedIterator.next_back listStepBack (⟨[1, 2], [9]⟩ : PeekableNth (List Nat) Nat) =
      (some 2, ⟨[1], [9]⟩) ∧
    (DoubleEndedIterator.next_back listStepBack
        (⟨[], [7, 8]⟩ : PeekableNth (List Nat) Nat)).1 = some 8 :=
  ⟨(next_back_cases listStepBack ⟨[1, 2], [9]⟩).1 2 [1] (by decide),
    by
      have h := (next_back_cases listStepBack (⟨[], [7, 8]⟩ : PeekableNth (List Nat) Nat)).2.1
        [] (by decide) (by decide)
      rw [h.1]; rfl⟩

/-- Claim C8: a freshly wrapped iterator has an empty buffer; a
`peek_nth n` call grows the buffer to at most `max` (its previous length)
`(n + 1)` elements; and neither `next` nor `next_back` ever grows the
buffer.  Hence the buffer never exceeds one more than the deepest depth
peeked since it was last drained that far. -/
theorem buffer_growth_bound (step stepb : σ → Option α × σ) (n : Nat)
    (s : PeekableNth σ α) (it : σ) :
    (IteratorExt.peekable_nth α it).next.length = 0 ∧
    (PeekableNth.peek_nth step n s).2.next.length ≤ max s.next.length (n + 1) ∧
    (Iterator.next step s).2.next.length ≤ s.next.length ∧
    (DoubleEndedIterator.next_back stepb s).2.next.length ≤ s.next.length := by
  refine ⟨rfl, ?_, ?_, ?_⟩
  · have h := pullN_length_le step (n + 1 - s.next.length) s
    simp only [PeekableNth.peek_nth]
    omega
  · rcases s with ⟨i, buf⟩
    cases buf with
    | nil => simp [Iterator.next]
    | cons x xs => simp [Iterator.next]
  · rcases hb : stepb s.iter with ⟨o, i2⟩
    cases o with
    | some v => simp [DoubleEndedIterator.next_back, hb]
    | none =>
      by_cases he : s.next.isEmpty
      · simp [DoubleEndedIterator.next_back, hb, he]
      · simp only [DoubleEndedIterator.next_back, hb, he, Bool.false_eq_true, if_false,
          List.length_dropLast]
        omega

/-- Claim C1 (evaluation at the failing input): `len()` returns only the
wrapped iterator's count.  For the source `[1, 2, 3]` (total 3), after
`peek_nth 0` and zero advances the buffer holds one element and `len()`
returns `2`, not the claimed `3` — so peeking alone changes `len()` and the
caller-visible count undercounts by the buffer's size. -/
theorem len_ignores_buffer_eval :
    ExactSizeIterator.len List.length (IteratorExt.peekable_nth Nat [1, 2, 3]) = 3 ∧
    ExactSizeIterator.len List.length
      (PeekableNth.peek_nth listStep 0 (IteratorExt.peekable_nth Nat [1, 2, 3])).2 = 2 ∧
    (PeekableNth.peek_nth listStep 0 (IteratorExt.peekable_nth Nat [1, 2, 3])).2.next.length
      = 1 := by
  decide

/-- Claim C5: for the bidirectional source `[1, 2, 3]`: `peek_nth 2`
returns `3` and buffers all three elements; then `next_back` returns `3`
(the true tail, now living in the buffer), `next` returns `1`, `next_back`
returns `2`, and from the resulting (empty, empty) state every further
`next` or `next_back` returns `none` (the state is a fixed point). -/
theorem bidirectional_scenario :
    PeekableNth.peek_nth listStep 2 (IteratorExt.peekable_nth Nat [1, 2, 3]) =
      (some 3, ⟨[], [1, 2, 3]⟩) ∧
    DoubleEndedIterator.next_back listStepBack (⟨[], [1, 2, 3]⟩ : PeekableNth (List Nat) Nat) =
      (some 3, ⟨[], [1, 2]⟩) ∧
    Iterator.next listStep (⟨[], [1, 2]⟩ : PeekableNth (List Nat) Nat) = (some 1, ⟨[], [2]⟩) ∧
    DoubleEndedIterator.next_back listStepBack (⟨[], [2]⟩ : PeekableNth (List Nat) Nat) =
      (some 2, ⟨[], []⟩) ∧
    Iterator.next listStep (⟨[], []⟩ : PeekableNth (List Nat) Nat) = (none, ⟨[], []⟩) ∧
    DoubleEndedIterator.next_back listStepBack (⟨[], []⟩ : PeekableNth (List Nat) Nat) =
      (none, ⟨[], []⟩) := by
  decide

/-- Claim C7: for an empty source sequence, `peek_nth 0` returns `none`,
`next` returns `none`, and `len()` returns `0`. -/
theorem empty_source_scenario :
    (PeekableNth.peek_nth listStep 0 (IteratorExt.peekable_nth Nat [])).1 = none ∧
    (Iterator.next listStep (IteratorExt.peekable_nth Nat [])).1 = none ∧
    ExactSizeIterator.len List.length (IteratorExt.peekable_nth Nat ([] : List Nat)) = 0 := by
  decide

/-- Claim C10: the adapter keeps no exhaustion flag — its state is just
(iterator, buffer).  With the non-fused scripted source `[none, some 5]`,
`next` (resp. `peek_nth 0`) first returns `none`, and the very next `next`
(resp. `peek_nth 0`) queries the source again and yields `5` instead of
remaining exhausted. -/
theorem no_exhaustion_flag :
    Iterator.next scriptStep (IteratorExt.peekable_nth Nat [none, some 5]) =
      (none, ⟨[some 5], []⟩) ∧
    Iterator.next scriptStep (⟨[some 5], []⟩ : PeekableNth (List (Option Nat)) Nat) =
      (some 5, ⟨[], []⟩) ∧
    PeekableNth.peek_nth scriptStep 0 (IteratorExt.peekable_nth Nat [none, some 5]) =
      (none, ⟨[some 5], []⟩) ∧
    PeekableNth.peek_nth scriptStep 0 (⟨[some 5], []⟩ : PeekableNth (List (Option Nat)) Nat) =
      (some 5, ⟨[], [5]⟩) := by
  decide
